import Mathlib

/-!
A shallow embedding of the `useStableRef` hook family of this repository
(`src/useStableRef.ts` and the unnamed variant containing `useSimpleRef`,
`useNonDisposableStableRef` and `useDisposableStableRef`), together with the
host lifecycle it relies on (render/compute phase, commit phase, teardown).

The hook has three operating modes resolved from its arguments:
  * passthrough (no dependency list),
  * eager rebuild (builder + dependency list, no cleanup),
  * deferred rebuild with cleanup (builder + cleanup + dependency list).

Values held by cells are kept abstract (`V`), dependency elements likewise
(`D` with decidable equality, standing for JavaScript reference/value
identity used by the shallow comparator).
-/

namespace StableRef

/-- A JavaScript argument as seen by the hook entry point: either a plain
value or a callable function.  Mode resolution (`resolveMode`) never inspects
this argument; it only looks at the second and third parameters. -/
inductive Arg (V : Type) where
  | value (v : V)
  | func (f : Nat → V)

/-- The second positional parameter of `useStableRef`: either a cleanup
function or a dependency list (`isFunction(param2)` distinguishes them). -/
inductive Param2 (D : Type) where
  | cleanupFn
  | depsList (d : List D)

/-- The `isFunction(param2)` test from the source: only a function value
passes; a dependency array or an absent argument does not. -/
def p2IsFunction {D : Type} : Option (Param2 D) → Bool
  | some Param2.cleanupFn => true
  | _ => false

/-- `const dependencies = isFunction(param2) ? param3 : param2;` -/
def resolveDeps {D : Type} (p2 : Option (Param2 D)) (p3 : Option (List D)) :
    Option (List D) :=
  if p2IsFunction p2 then p3
  else
    match p2 with
    | some (Param2.depsList d) => some d
    | _ => none

/-- The three operating modes of the hook. -/
inductive Mode where
  | simple
  | eager
  | disposable
deriving DecidableEq

/-- Mode resolution from the hook entry point: `isSimpleRef = isNil(dependencies)`
selects passthrough; otherwise a function-valued `param2` (a cleanup callback)
selects the disposable (deferred) variant, else the eager variant.  The first
argument is never consulted. -/
def resolveMode {V D : Type} (_p1 : Arg V) (p2 : Option (Param2 D))
    (p3 : Option (List D)) : Mode :=
  match resolveDeps p2 p3 with
  | none => Mode.simple
  | some _ => if p2IsFunction p2 then Mode.disposable else Mode.eager

/-- Modelled from the spec: `shallowCompare` is imported from the external
package `react-global-state-hooks`, whose source is not in this repository.
Per the DependencyComparator contract, two sequences are equal exactly when
both are present, have the same length, and corresponding elements are
identical; absent versus present is never equal. -/
def shallowCompare {D : Type} [DecidableEq D] :
    Option (List D) → Option (List D) → Bool
  | some xs, some ys => decide (xs = ys)
  | _, _ => false

/-! ### Passthrough mode

`useSimpleRef` (unnamed variant): `const ref = useRef(value); ref.current = value`.
The `id` field models JavaScript object identity: it is chosen at creation
(the host's `useRef`/`useMemo` memoization) and every cycle mutates the same
object in place. -/

/-- The plain ref cell of `useSimpleRef`: a single mutable `current` field,
no guard, no builder, no dependency bookkeeping. -/
structure SimpleCell (V : Type) where
  id : Nat
  current : V
deriving DecidableEq

/-- Cell creation on the first cycle: `useRef(value)` seeds `current` with
the first supplied argument. -/
def simpleInit {V : Type} (i : Nat) (v0 : V) : SimpleCell V :=
  { id := i, current := v0 }

/-- One recompute cycle of `useSimpleRef`: `ref.current = value`,
unconditionally. -/
def simpleStep {V : Type} (v : V) (c : SimpleCell V) : SimpleCell V :=
  { c with current := v }

/-- A sequence of recompute cycles after creation. -/
def simpleRunFrom {V : Type} : List V → SimpleCell V → SimpleCell V
  | [], c => c
  | v :: vs, c => simpleRunFrom vs (simpleStep v c)

/-- The whole lifetime of a passthrough call site: creation with the first
argument, then one step per further cycle. -/
def simpleRun {V : Type} (i : Nat) (v0 : V) (vs : List V) : SimpleCell V :=
  simpleRunFrom vs (simpleInit i v0)

/-! ### The guarded wrapper of the named `src/useStableRef.ts`

That file uses one wrapper for all modes: a hidden `current` slot (initially
`undefined`), an `isInitialized` flag, a getter that throws while
uninitialized, and an unguarded setter.  In passthrough mode each cycle does
`ref.current = param1; ref.isInitialized = true`. -/

/-- Access errors surfaced by guarded getters. -/
inductive AccessError where
  | uninitializedAccess
  | disposedAccess
deriving DecidableEq

/-- The wrapper cell of `src/useStableRef.ts`: hidden slot (`none` models
`undefined`) plus the initialization flag. -/
structure WrapperCell (V : Type) where
  id : Nat
  current : Option V
  isInitialized : Bool
deriving DecidableEq

/-- Wrapper creation (`useMemo(..., [])` body): slot `undefined`, flag false. -/
def wrapperInit {V : Type} (i : Nat) : WrapperCell V :=
  { id := i, current := none, isInitialized := false }

/-- The getter of `src/useStableRef.ts`: throw while not initialized,
otherwise return the hidden slot. -/
def wrapperGet {V : Type} (c : WrapperCell V) : Except AccessError (Option V) :=
  if c.isInitialized then Except.ok c.current
  else Except.error AccessError.uninitializedAccess

/-- The setter of `src/useStableRef.ts`: unconditional store, no guard, so it
is total and is modelled as always returning `ok`. -/
def wrapperSet {V : Type} (v : V) (c : WrapperCell V) :
    Except AccessError (WrapperCell V) :=
  Except.ok { c with current := some v }

/-- One passthrough cycle in `src/useStableRef.ts`:
`ref.current = param1 as T; ref.isInitialized = true`. -/
def wrapperSimpleStep {V : Type} (v : V) (c : WrapperCell V) : WrapperCell V :=
  { c with current := some v, isInitialized := true }

/-- A sequence of passthrough cycles on the wrapper cell. -/
def wrapperSimpleRunFrom {V : Type} : List V → WrapperCell V → WrapperCell V
  | [], c => c
  | v :: vs, c => wrapperSimpleRunFrom vs (wrapperSimpleStep v c)

/-! ### Eager rebuild mode (`useNonDisposableStableRef`)

The cell is a plain object `{ current: unique_symbol, dependencies: undefined }`
memoized once.  Each render: `isFirstRun = ref.current === unique_symbol`;
`shouldBuild = isFunction(builder) && (isFirstRun || !shallowCompare(ref.dependencies, dependencies))`;
if so `ref.current = builder()`; finally `ref.dependencies = dependencies`.
The read is a plain property access with no guard. -/

/-- The hidden slot of the eager cell: either the private `unique_symbol`
sentinel or a stored value. -/
inductive Slot (V : Type) where
  | sym
  | val (v : V)
deriving DecidableEq

/-- The eager cell: plain fields, created once by `useMemo(..., [])`. -/
structure EagerCell (V D : Type) where
  id : Nat
  current : Slot V
  dependencies : Option (List D)
deriving DecidableEq

/-- Eager cell creation: sentinel value, no recorded dependencies. -/
def eagerInit {V D : Type} (i : Nat) : EagerCell V D :=
  { id := i, current := Slot.sym, dependencies := none }

/-- `ref.current === unique_symbol`. -/
def isFirstRun {V D : Type} (c : EagerCell V D) : Bool :=
  match c.current with
  | Slot.sym => true
  | Slot.val _ => false

/-- The `shouldBuild` guard of `useNonDisposableStableRef`; `bf` is
`isFunction(builder)`. -/
def eagerShouldBuild {V D : Type} [DecidableEq D] (bf : Bool)
    (c : EagerCell V D) (deps : List D) : Bool :=
  bf && (isFirstRun c || !shallowCompare c.dependencies (some deps))

/-- One render of `useNonDisposableStableRef`.  `bv` is the value the builder
returns if invoked this cycle.  Returns the updated cell and the list of
builder invocations performed (their results), empty when no build happens.
`ref.dependencies = dependencies` runs every cycle, after the build check. -/
def eagerStep {V D : Type} [DecidableEq D] (bf : Bool) (bv : V) (deps : List D)
    (c : EagerCell V D) : EagerCell V D × List V :=
  let sb := eagerShouldBuild bf c deps
  let c1 := if sb then { c with current := Slot.val bv } else c
  ({ c1 with dependencies := some deps }, if sb then [bv] else [])

/-- Reading the eager cell: a plain, unguarded property access that returns
whatever the slot holds, sentinel included. -/
def eagerRead {V D : Type} (c : EagerCell V D) : Slot V :=
  c.current

/-- The running state of an eager call site: the cell plus the accumulated
trace of builder invocations (each entry the value a build produced). -/
structure EagerRun (V D : Type) where
  cell : EagerCell V D
  trace : List V
deriving DecidableEq

/-- Fold a list of cycles (dependency list and would-be builder result per
cycle) over the eager machine, accumulating the build trace. -/
def eagerGo {V D : Type} [DecidableEq D] (bf : Bool) :
    List (List D × V) → EagerRun V D → EagerRun V D
  | [], r => r
  | (d, v) :: rest, r =>
      let s := eagerStep bf v d r.cell
      eagerGo bf rest { cell := s.1, trace := r.trace ++ s.2 }

/-- The whole lifetime of an eager call site starting from a fresh cell. -/
def eagerRunAll {V D : Type} [DecidableEq D] (bf : Bool) (i : Nat)
    (cycles : List (List D × V)) : EagerRun V D :=
  eagerGo bf cycles { cell := eagerInit i, trace := [] }

/-- Number of adjacent changes in a sequence of dependency lists: how many
cycles see a dependency list different from the previous cycle's. -/
def changeCount {α : Type} [DecidableEq α] : List α → Nat
  | [] => 0
  | [_] => 0
  | a :: b :: rest => (if a = b then 0 else 1) + changeCount (b :: rest)

/-! ### Deferred rebuild with cleanup (`useDisposableStableRef`)

The cell is the guarded wrapper: hidden `current` slot starting at the
sentinel, `isInitialized` flag, a getter that throws
`Stable ref is not available during render phase.` while uninitialized and
`Stable was disposed and is no longer available.` when the slot holds the
sentinel, and an unguarded setter.  The builder and cleanup run inside
`useEffect(() => { const current = stableBuilder(); ref.current = current;
ref.isInitialized = true; return () => { stableCleanup(current);
ref.current = null; }; }, [ref, ...dependencies])`: the effect re-runs on a
committed cycle exactly when its dependency list changed, running the
previous effect's cleanup first; on teardown only the cleanup runs. -/

/-- The hidden slot of the disposable cell: the sentinel, the JavaScript
`null` written by the effect cleanup, or a stored value.  `null` is distinct
from the sentinel, which is what the disposed-read check compares against. -/
inductive DSlot (V : Type) where
  | sym
  | jsnull
  | val (v : V)
deriving DecidableEq

/-- The disposable wrapper cell. -/
structure DisposableCell (V : Type) where
  id : Nat
  current : DSlot V
  isInitialized : Bool
deriving DecidableEq

/-- Creation (`useMemo(..., [])` body): sentinel slot, flag false. -/
def dInit {V : Type} (i : Nat) : DisposableCell V :=
  { id := i, current := DSlot.sym, isInitialized := false }

/-- What a successful read yields: the stored value, or JavaScript `null`. -/
inductive ReadValue (V : Type) where
  | jsnull
  | val (v : V)
deriving DecidableEq

/-- The guarded getter: uninitialized reads throw, a sentinel slot throws the
disposed error, anything else is returned as-is (`null` included). -/
def dGet {V : Type} (c : DisposableCell V) : Except AccessError (ReadValue V) :=
  if !c.isInitialized then Except.error AccessError.uninitializedAccess
  else
    match c.current with
    | DSlot.sym => Except.error AccessError.disposedAccess
    | DSlot.jsnull => Except.ok ReadValue.jsnull
    | DSlot.val v => Except.ok (ReadValue.val v)

/-- The unguarded setter: an unconditional store that never throws, so it is
total and always returns `ok`. -/
def dSet {V : Type} (v : V) (c : DisposableCell V) :
    Except AccessError (DisposableCell V) :=
  Except.ok { c with current := DSlot.val v }

/-- Observable events of the deferred machine: builder invocations (with the
produced value) and cleanup invocations (with the argument passed). -/
inductive DEvent (V : Type) where
  | build (v : V)
  | cleanup (v : V)
deriving DecidableEq

/-- Host lifecycle steps for a deferred call site: a compute-phase render
carrying the dependency list passed to `useEffect`, a commit of the latest
render (`bv` being the value the builder produces if invoked), and teardown
of the owning scope. -/
inductive HostStep (V D : Type) where
  | render (deps : List D)
  | commit (bv : V)
  | teardown
deriving DecidableEq

/-- The full state of a deferred call site: the cell, the dependency list of
the latest (pending) render, the dependency list and captured value of the
currently installed effect, the history of installed values, the teardown
flag, and the accumulated event trace. -/
structure DeferredState (V D : Type) where
  cell : DisposableCell V
  pendingDeps : Option (List D)
  effectDeps : Option (List D)
  installedArg : Option V
  builtVals : List V
  tornDown : Bool
  trace : List (DEvent V)
deriving DecidableEq

/-- Initial state at call-site creation. -/
def dStart {V D : Type} (i : Nat) : DeferredState V D :=
  { cell := dInit i
    pendingDeps := none
    effectDeps := none
    installedArg := none
    builtVals := []
    tornDown := false
    trace := [] }

/-- One host step.  A render only records the pending dependency list (the
stable-callback wrapper also refreshes the latest closures, which has no
observable effect here).  A commit compares the pending dependency list with
the installed effect's; on change it first runs the installed cleanup
(`stableCleanup(current); ref.current = null`) and then the new effect
(`current = stableBuilder(); ref.current = current; ref.isInitialized =
true`).  Teardown runs the installed cleanup once and unmounts; after
teardown the call site is gone and every further step is inert. -/
def dStep {V D : Type} [DecidableEq D] (s : HostStep V D)
    (st : DeferredState V D) : DeferredState V D :=
  if st.tornDown then st
  else
    match s with
    | HostStep.render d => { st with pendingDeps := some d }
    | HostStep.commit bv =>
        match st.pendingDeps with
        | none => st
        | some d =>
            if st.effectDeps = some d then st
            else
              { st with
                cell := { id := st.cell.id
                          current := DSlot.val bv
                          isInitialized := true }
                effectDeps := some d
                installedArg := some bv
                builtVals := st.builtVals ++ [bv]
                trace := st.trace
                  ++ (match st.installedArg with
                      | some a => [DEvent.cleanup a, DEvent.build bv]
                      | none => [DEvent.build bv]) }
    | HostStep.teardown =>
        { st with
          cell := (match st.installedArg with
                   | some _ => { id := st.cell.id
                                 current := DSlot.jsnull
                                 isInitialized := st.cell.isInitialized }
                   | none => st.cell)
          tornDown := true
          trace := st.trace
            ++ (match st.installedArg with
                | some a => [DEvent.cleanup a]
                | none => []) }

/-- A sequence of host steps from a given state. -/
def dRunFrom {V D : Type} [DecidableEq D] :
    List (HostStep V D) → DeferredState V D → DeferredState V D
  | [], st => st
  | s :: rest, st => dRunFrom rest (dStep s st)

/-- The lifetime of a deferred call site from creation. -/
def dRun {V D : Type} [DecidableEq D] (i : Nat) (steps : List (HostStep V D)) :
    DeferredState V D :=
  dRunFrom steps (dStart i)

/-- The canonical event trace generated by installing the values `vs` in
order at one call site: each installed value is cleaned up exactly once right
before its successor is built, and when `torn` is true the last installed
value is cleaned up once more at teardown. -/
def mkTrace {V : Type} : List V → Bool → List (DEvent V)
  | [], _ => []
  | v :: rest, torn =>
      DEvent.build v ::
        (match rest with
         | [] => if torn then [DEvent.cleanup v] else []
         | _ :: _ => DEvent.cleanup v :: mkTrace rest torn)

/-- `true` exactly on commit steps. -/
def isCommit {V D : Type} : HostStep V D → Bool
  | HostStep.commit _ => true
  | _ => false

/-- The inductive invariant of the deferred machine: the event trace is the
canonical cleanup-before-build interleaving of the installed-value history,
and the installed effect's captured cleanup argument is the last installed
value. -/
def DInv {V D : Type} (st : DeferredState V D) : Prop :=
  st.trace = mkTrace st.builtVals st.tornDown
    ∧ st.installedArg = st.builtVals.getLast?

/-! ### Helper lemmas -/

theorem simpleRun_shift {V : Type} (i : Nat) (v0 v : V) (vs : List V) :
    simpleRun i v0 (v :: vs) = simpleRun i v vs := rfl

theorem simpleRun_last {V : Type} (i : Nat) (v0 : V) (vs : List V) :
    some (simpleRun i v0 vs).current = (v0 :: vs).getLast? := by
  induction vs generalizing v0 with
  | nil => rfl
  | cons v vs ih =>
      rw [simpleRun_shift, List.getLast?_cons_cons]
      exact ih v

theorem simpleRun_id {V : Type} (i : Nat) (v0 : V) (vs : List V) :
    (simpleRun i v0 vs).id = i := by
  induction vs generalizing v0 with
  | nil => rfl
  | cons v vs ih => rw [simpleRun_shift]; exact ih v

theorem wrapperSimpleRunFrom_spec {V : Type} (v : V) (vs : List V)
    (c : WrapperCell V) :
    (wrapperSimpleRunFrom (v :: vs) c).isInitialized = true
      ∧ (wrapperSimpleRunFrom (v :: vs) c).current = (v :: vs).getLast?
      ∧ (wrapperSimpleRunFrom (v :: vs) c).id = c.id := by
  induction vs generalizing v c with
  | nil => exact ⟨rfl, rfl, rfl⟩
  | cons w ws ih =>
      rw [List.getLast?_cons_cons]
      exact ih w (wrapperSimpleStep v c)

theorem eagerStep_dependencies {V D : Type} [DecidableEq D] (bf : Bool)
    (bv : V) (deps : List D) (c : EagerCell V D) :
    (eagerStep bf bv deps c).1.dependencies = some deps := rfl

theorem eagerStep_id {V D : Type} [DecidableEq D] (bf : Bool) (bv : V)
    (deps : List D) (c : EagerCell V D) :
    (eagerStep bf bv deps c).1.id = c.id := by
  unfold eagerStep
  dsimp only
  split <;> rfl

theorem eagerStep_current {V D : Type} [DecidableEq D] (bf : Bool) (bv : V)
    (deps : List D) (c : EagerCell V D) :
    (eagerStep bf bv deps c).1.current
      = (if eagerShouldBuild bf c deps then Slot.val bv else c.current) := by
  unfold eagerStep
  dsimp only
  split <;> simp_all

theorem eagerStep_trace {V D : Type} [DecidableEq D] (bf : Bool) (bv : V)
    (deps : List D) (c : EagerCell V D) :
    (eagerStep bf bv deps c).2
      = (if eagerShouldBuild bf c deps then [bv] else []) := rfl

theorem eagerGo_id {V D : Type} [DecidableEq D] (bf : Bool)
    (cycles : List (List D × V)) (r : EagerRun V D) :
    (eagerGo bf cycles r).cell.id = r.cell.id := by
  induction cycles generalizing r with
  | nil => rfl
  | cons p rest ih =>
      obtain ⟨d, v⟩ := p
      rw [eagerGo]
      rw [ih]
      exact eagerStep_id bf v d r.cell

theorem eagerGo_false {V D : Type} [DecidableEq D]
    (cycles : List (List D × V)) (r : EagerRun V D) :
    (eagerGo false cycles r).trace = r.trace
      ∧ (eagerGo false cycles r).cell.current = r.cell.current := by
  induction cycles generalizing r with
  | nil => exact ⟨rfl, rfl⟩
  | cons p rest ih =>
      obtain ⟨d, v⟩ := p
      have hsb : eagerShouldBuild false r.cell d = false := rfl
      rw [eagerGo, eagerStep_trace, hsb]
      simp only [Bool.false_eq_true, if_false, List.append_nil]
      refine ⟨(ih _).1, ?_⟩
      rw [(ih _).2, eagerStep_current, hsb]
      simp

theorem eagerShouldBuild_steady {V D : Type} [DecidableEq D] (w : V)
    (d deps : List D) (c : EagerCell V D) (hc : c.current = Slot.val w)
    (hd : c.dependencies = some d) :
    eagerShouldBuild true c deps = !(decide (d = deps)) := by
  unfold eagerShouldBuild isFirstRun
  rw [hc, hd]
  simp [shallowCompare]

theorem eagerGo_true_count {V D : Type} [DecidableEq D]
    (cycles : List (List D × V)) (w : V) (d : List D) (r : EagerRun V D)
    (hc : r.cell.current = Slot.val w) (hd : r.cell.dependencies = some d) :
    (eagerGo true cycles r).trace.length
      = r.trace.length + changeCount (d :: cycles.map Prod.fst) := by
  induction cycles generalizing w d r with
  | nil => rfl
  | cons p rest ih =>
      obtain ⟨d2, v2⟩ := p
      rw [eagerGo]
      by_cases hdd : d = d2
      · have hsb : eagerShouldBuild true r.cell d2 = false := by
          rw [eagerShouldBuild_steady w d d2 r.cell hc hd]
          simp [hdd]
        have hcur : (eagerStep true v2 d2 r.cell).1.current = Slot.val w := by
          rw [eagerStep_current, hsb]
          simpa using hc
        rw [ih w d2 _ hcur (eagerStep_dependencies true v2 d2 r.cell)]
        rw [eagerStep_trace, hsb]
        simp [changeCount, hdd]
      · have hsb : eagerShouldBuild true r.cell d2 = true := by
          rw [eagerShouldBuild_steady w d d2 r.cell hc hd]
          simp [hdd]
        have hcur : (eagerStep true v2 d2 r.cell).1.current = Slot.val v2 := by
          rw [eagerStep_current, hsb]
          simp
        rw [ih v2 d2 _ hcur (eagerStep_dependencies true v2 d2 r.cell)]
        rw [eagerStep_trace, hsb]
        simp [changeCount, hdd]
        omega

theorem eagerRunAll_first_build {V D : Type} [DecidableEq D] (i : Nat)
    (d0 : List D) (v0 : V) (rest : List (List D × V)) :
    eagerRunAll true i ((d0, v0) :: rest)
      = eagerGo true rest
          { cell := { id := i, current := Slot.val v0, dependencies := some d0 }
            trace := [v0] } := by
  rfl

theorem eagerRunAll_true_count {V D : Type} [DecidableEq D] (i : Nat)
    (d0 : List D) (v0 : V) (rest : List (List D × V)) :
    (eagerRunAll true i ((d0, v0) :: rest)).trace.length
      = 1 + changeCount (d0 :: rest.map Prod.fst) := by
  rw [eagerRunAll_first_build]
  rw [eagerGo_true_count rest v0 d0 _ rfl rfl]
  rfl

theorem eagerGo_true_samedeps {V D : Type} [DecidableEq D] (bvs : List V)
    (w : V) (d : List D) (r : EagerRun V D) (hc : r.cell.current = Slot.val w)
    (hd : r.cell.dependencies = some d) :
    (eagerGo true (bvs.map fun v => (d, v)) r).trace = r.trace
      ∧ (eagerGo true (bvs.map fun v => (d, v)) r).cell.current
          = Slot.val w := by
  induction bvs generalizing r with
  | nil => exact ⟨rfl, hc⟩
  | cons bv bvs ih =>
      have hsb : eagerShouldBuild true r.cell d = false := by
        rw [eagerShouldBuild_steady w d d r.cell hc hd]
        simp
      have hcur : (eagerStep true bv d r.cell).1.current = Slot.val w := by
        rw [eagerStep_current, hsb]
        simpa using hc
      rw [List.map_cons, eagerGo, eagerStep_trace, hsb]
      have h := ih (r := { cell := (eagerStep true bv d r.cell).1
                           trace := r.trace
                             ++ if eagerShouldBuild true r.cell d = true
                                then [bv] else [] })
        hcur (eagerStep_dependencies true bv d r.cell)
      rw [hsb] at h
      simpa using h

theorem eagerGo_lastdeps {V D : Type} [DecidableEq D] (bf : Bool) (d : List D)
    (v : V) (rest : List (List D × V)) (r : EagerRun V D) :
    (eagerGo bf ((d, v) :: rest) r).cell.dependencies
      = (((d, v) :: rest).map Prod.fst).getLast? := by
  induction rest generalizing d v r with
  | nil =>
      rw [eagerGo, eagerGo]
      exact eagerStep_dependencies bf v d r.cell
  | cons p rest ih =>
      obtain ⟨d2, v2⟩ := p
      rw [eagerGo, List.map_cons, List.map_cons, List.getLast?_cons_cons]
      rw [ih d2 v2 _]
      rfl

theorem mkTrace_cons_cons {V : Type} (v w : V) (ws : List V) (torn : Bool) :
    mkTrace (v :: w :: ws) torn
      = DEvent.build v :: DEvent.cleanup v :: mkTrace (w :: ws) torn := rfl

theorem mkTrace_snoc {V : Type} (vs : List V) (v : V) :
    mkTrace (vs ++ [v]) false
      = mkTrace vs false
          ++ (match vs.getLast? with
              | some a => [DEvent.cleanup a, DEvent.build v]
              | none => [DEvent.build v]) := by
  induction vs with
  | nil => rfl
  | cons w ws ih =>
      cases ws with
      | nil => rfl
      | cons x xs =>
          have h1 : (w :: x :: xs) ++ [v] = w :: x :: (xs ++ [v]) := by simp
          rw [h1, mkTrace_cons_cons, ← List.cons_append, ih,
            List.getLast?_cons_cons, mkTrace_cons_cons]
          simp

theorem mkTrace_torndown {V : Type} (vs : List V) :
    mkTrace vs true
      = mkTrace vs false
          ++ (match vs.getLast? with
              | some a => [DEvent.cleanup a]
              | none => []) := by
  induction vs with
  | nil => rfl
  | cons w ws ih =>
      cases ws with
      | nil => rfl
      | cons x xs =>
          rw [List.getLast?_cons_cons, mkTrace_cons_cons, mkTrace_cons_cons, ih]
          simp

theorem dStart_inv {V D : Type} (i : Nat) : DInv (dStart (V := V) (D := D) i) :=
  ⟨rfl, rfl⟩

theorem dStep_inv {V D : Type} [DecidableEq D] (s : HostStep V D)
    (st : DeferredState V D) (h : DInv st) : DInv (dStep s st) := by
  obtain ⟨cell, pd, ed, ia, bvals, td, tr⟩ := st
  obtain ⟨htr, harg⟩ := h
  dsimp only at htr harg
  cases td with
  | true => exact ⟨htr, harg⟩
  | false =>
      cases s with
      | render d => exact ⟨htr, harg⟩
      | teardown =>
          cases ia with
          | none =>
              have hbv : bvals = [] := List.getLast?_eq_none_iff.mp harg.symm
              subst hbv
              constructor
              · show tr ++ [] = mkTrace ([] : List V) true
                rw [htr]
                rfl
              · exact harg
          | some a =>
              constructor
              · show tr ++ [DEvent.cleanup a] = mkTrace bvals true
                rw [htr, mkTrace_torndown, ← harg]
              · exact harg
      | commit bv =>
          cases pd with
          | none => exact ⟨htr, harg⟩
          | some d =>
              show DInv (if ed = some d then _ else _)
              by_cases heq : ed = some d
              · rw [if_pos heq]
                exact ⟨htr, harg⟩
              · rw [if_neg heq]
                cases ia with
                | none =>
                    have hbv : bvals = []
                      := List.getLast?_eq_none_iff.mp harg.symm
                    subst hbv
                    constructor
                    · show tr ++ [DEvent.build bv]
                        = mkTrace ([] ++ [bv]) false
                      rw [htr]
                      rfl
                    · show (some bv : Option V)
                        = (([] : List V) ++ [bv]).getLast?
                      rfl
                | some a =>
                    constructor
                    · show tr ++ [DEvent.cleanup a, DEvent.build bv]
                        = mkTrace (bvals ++ [bv]) false
                      rw [htr, mkTrace_snoc, ← harg]
                    · show (some bv : Option V) = (bvals ++ [bv]).getLast?
                      rw [List.getLast?_concat]

theorem dRunFrom_inv {V D : Type} [DecidableEq D]
    (steps : List (HostStep V D)) (st : DeferredState V D) (h : DInv st) :
    DInv (dRunFrom steps st) := by
  induction steps generalizing st with
  | nil => exact h
  | cons s rest ih => exact ih (dStep s st) (dStep_inv s st h)

theorem dRun_inv {V D : Type} [DecidableEq D] (i : Nat)
    (steps : List (HostStep V D)) : DInv (dRun i steps) :=
  dRunFrom_inv steps (dStart i) (dStart_inv i)

theorem dStep_torndown {V D : Type} [DecidableEq D] (s : HostStep V D)
    (st : DeferredState V D) (h : st.tornDown = true) : dStep s st = st := by
  unfold dStep
  rw [if_pos h]

theorem dStep_id {V D : Type} [DecidableEq D] (s : HostStep V D)
    (st : DeferredState V D) : (dStep s st).cell.id = st.cell.id := by
  obtain ⟨cell, pd, ed, ia, bvals, td, tr⟩ := st
  cases td with
  | true => rfl
  | false =>
      cases s with
      | render d => rfl
      | teardown => cases ia <;> rfl
      | commit bv =>
          cases pd with
          | none => rfl
          | some d =>
              by_cases heq : ed = some d
              · simp [dStep, heq]
              · simp [dStep, heq]

theorem dRunFrom_id {V D : Type} [DecidableEq D]
    (steps : List (HostStep V D)) (st : DeferredState V D) :
    (dRunFrom steps st).cell.id = st.cell.id := by
  induction steps generalizing st with
  | nil => rfl
  | cons s rest ih => rw [dRunFrom, ih, dStep_id]

theorem dStep_nocommit {V D : Type} [DecidableEq D] (s : HostStep V D)
    (st : DeferredState V D) (hs : isCommit s = false)
    (h1 : st.cell.isInitialized = false) (h2 : st.installedArg = none) :
    (dStep s st).cell.isInitialized = false
      ∧ (dStep s st).installedArg = none := by
  obtain ⟨cell, pd, ed, ia, bvals, td, tr⟩ := st
  dsimp only at h1 h2
  subst h2
  cases td with
  | true => exact ⟨h1, rfl⟩
  | false =>
      cases s with
      | render d => exact ⟨h1, rfl⟩
      | teardown => exact ⟨h1, rfl⟩
      | commit bv => simp [isCommit] at hs

theorem dRunFrom_nocommit {V D : Type} [DecidableEq D]
    (steps : List (HostStep V D)) (st : DeferredState V D)
    (hs : ∀ s ∈ steps, isCommit s = false)
    (h1 : st.cell.isInitialized = false) (h2 : st.installedArg = none) :
    (dRunFrom steps st).cell.isInitialized = false := by
  induction steps generalizing st with
  | nil => exact h1
  | cons s rest ih =>
      have hstep := dStep_nocommit s st (hs s (by simp))
        h1 h2
      exact ih (dStep s st) (fun x hx => hs x (by simp [hx]))
        hstep.1 hstep.2

/-! ### Claim theorems -/

/-- C1: in deferred rebuild-with-cleanup mode, over any sequence of host
steps the event trace is exactly the canonical interleaving of the history of
installed values: each installed value is passed to cleanup exactly once,
strictly before the next builder result is installed, and — when the scope is
torn down — the last installed value is passed to cleanup exactly once more;
and once torn down every further host step (in particular any builder
invocation) is inert. -/
theorem c1_deferred_cleanup_discipline {V D : Type} [DecidableEq D] (i : Nat)
    (steps : List (HostStep V D)) (st2 : DeferredState V D)
    (s : HostStep V D) :
    (dRun i steps).trace
        = mkTrace (dRun i steps).builtVals (dRun i steps).tornDown
      ∧ dStep s { st2 with tornDown := true }
          = { st2 with tornDown := true } := by
  refine ⟨(dRun_inv i steps).1, ?_⟩
  exact dStep_torndown s _ rfl

/-- C2: in every mode, the cell object returned by the hook is the identical
object on every cycle — its identity (modelled by the `id` field assigned at
creation by the host's memoization) never changes over any run, whatever the
stored values or dependency sequences do. -/
theorem c2_cell_identity_stable {V D : Type} [DecidableEq D] (i : Nat)
    (bf : Bool) (v0 : V) (vs : List V) (cycles : List (List D × V))
    (steps : List (HostStep V D)) :
    (simpleRun i v0 vs).id = i
      ∧ (eagerRunAll bf i cycles).cell.id = i
      ∧ (dRun i steps).cell.id = i := by
  refine ⟨simpleRun_id i v0 vs, ?_, ?_⟩
  · exact eagerGo_id bf cycles { cell := eagerInit i, trace := [] }
  · exact dRunFrom_id steps (dStart i)

/-- C3: in deferred rebuild-with-cleanup mode, as long as no commit has
happened (any number of compute-phase renders, in any order), reading the
cell's value raises the uninitialized-access error — the render-phase read
guard — rather than returning a value. -/
theorem c3_uninitialized_read_raises {V D : Type} [DecidableEq D] (i : Nat)
    (steps : List (HostStep V D)) (hs : ∀ s ∈ steps, isCommit s = false) :
    dGet (dRun i steps).cell
      = Except.error AccessError.uninitializedAccess := by
  have h : (dRun i steps).cell.isInitialized = false :=
    dRunFrom_nocommit steps (dStart i) hs rfl rfl
  simp [dGet, h]

/-- Witness for C3 at a concrete run: one render then teardown, no commit. -/
theorem c3_uninitialized_read_raises_witness :
    (∀ s ∈ ([HostStep.render [0], HostStep.teardown] :
        List (HostStep Nat Nat)), isCommit s = false)
      ∧ dGet (dRun 0 ([HostStep.render [0], HostStep.teardown] :
          List (HostStep Nat Nat))).cell
          = Except.error AccessError.uninitializedAccess :=
  ⟨by decide, c3_uninitialized_read_raises 0 _ (by decide)⟩

/-- C4 (refuting evaluation): after mount (render, commit building 42) and
teardown, reading the cell returns JavaScript `null` successfully instead of
raising the disposed-access error: the teardown cleanup stores `null`, not
the sentinel the disposed check compares against, so the disposed branch of
the getter is unreachable and no error is raised. -/
theorem c4_teardown_read_returns_null :
    dGet (dRun (V := Nat) (D := Nat) 0
        [HostStep.render [0], HostStep.commit 42, HostStep.teardown]).cell
        = Except.ok ReadValue.jsnull
      ∧ (dRun (V := Nat) (D := Nat) 0
          [HostStep.render [0], HostStep.commit 42,
            HostStep.teardown]).tornDown = true := by
  exact ⟨rfl, rfl⟩

/-- C5: in eager rebuild mode with a callable builder, over any nonempty run
the number of builder invocations is exactly one (for the first cycle) plus
one per cycle whose dependency list differs from the previous cycle's; when
the dependency list is held constant the builder runs exactly once and the
stored value stays the first build result; the recorded previous dependency
list is updated every cycle to the last cycle's; and a single cycle builds
exactly when the `shouldBuild` guard fires, leaving the stored value
untouched otherwise. -/
theorem c5_eager_build_exactly_on_change {V D : Type} [DecidableEq D]
    (i : Nat) (d0 : List D) (v0 : V) (rest : List (List D × V))
    (bvs : List V) (c : EagerCell V D) (bv : V) (dp : List D) :
    (eagerRunAll true i ((d0, v0) :: rest)).trace.length
        = 1 + changeCount (d0 :: rest.map Prod.fst)
      ∧ (eagerRunAll true i
          ((d0, v0) :: bvs.map (fun v => (d0, v)))).trace = [v0]
      ∧ (eagerRunAll true i
          ((d0, v0) :: bvs.map (fun v => (d0, v)))).cell.current
          = Slot.val v0
      ∧ (eagerRunAll true i ((d0, v0) :: rest)).cell.dependencies
          = (((d0, v0) :: rest).map Prod.fst).getLast?
      ∧ (eagerStep true bv dp c).1.current
          = (if eagerShouldBuild true c dp then Slot.val bv else c.current)
      ∧ (eagerStep true bv dp c).2
          = (if eagerShouldBuild true c dp then [bv] else [])
      ∧ (eagerStep true bv dp c).1.dependencies = some dp := by
  refine ⟨eagerRunAll_true_count i d0 v0 rest, ?_, ?_,
    eagerGo_lastdeps true d0 v0 rest { cell := eagerInit i, trace := [] },
    eagerStep_current true bv dp c, eagerStep_trace true bv dp c,
    eagerStep_dependencies true bv dp c⟩
  · rw [eagerRunAll_first_build]
    exact (eagerGo_true_samedeps bvs v0 d0 _ rfl rfl).1
  · rw [eagerRunAll_first_build]
    exact (eagerGo_true_samedeps bvs v0 d0 _ rfl rfl).2

/-- C6: in deferred rebuild-with-cleanup mode, a compute-phase render invokes
neither the builder nor the cleanup (the event trace is unchanged) and
mutates nothing but the pending dependency record: the cell, the installed
effect bookkeeping and the value history are untouched, and the pending
dependency list is set to the rendered one (on a live scope). -/
theorem c6_render_phase_invokes_nothing {V D : Type} [DecidableEq D]
    (st : DeferredState V D) (d : List D) :
    (dStep (HostStep.render d) st).trace = st.trace
      ∧ (dStep (HostStep.render d) st).cell = st.cell
      ∧ (dStep (HostStep.render d) st).builtVals = st.builtVals
      ∧ (dStep (HostStep.render d) st).effectDeps = st.effectDeps
      ∧ (dStep (HostStep.render d) st).installedArg = st.installedArg
      ∧ (dStep (HostStep.render d) st).pendingDeps
          = (if st.tornDown then st.pendingDeps else some d) := by
  obtain ⟨cell, pd, ed, ia, bvals, td, tr⟩ := st
  cases td with
  | true => exact ⟨rfl, rfl, rfl, rfl, rfl, rfl⟩
  | false => exact ⟨rfl, rfl, rfl, rfl, rfl, rfl⟩

/-- C7: in eager rebuild mode, on a cycle whose `shouldBuild` guard fires the
builder runs synchronously within that compute-phase step: the cell holds the
builder's result immediately, an unguarded read returns it within the same
step, and the build is recorded in that step's own trace — no commit phase is
involved. -/
theorem c7_eager_synchronous_build {V D : Type} [DecidableEq D]
    (c : EagerCell V D) (bv : V) (dp : List D)
    (h : eagerShouldBuild true c dp = true) :
    (eagerStep true bv dp c).1.current = Slot.val bv
      ∧ eagerRead (eagerStep true bv dp c).1 = Slot.val bv
      ∧ (eagerStep true bv dp c).2 = [bv] := by
  refine ⟨?_, ?_, ?_⟩
  · rw [eagerStep_current, if_pos h]
  · show (eagerStep true bv dp c).1.current = Slot.val bv
    rw [eagerStep_current, if_pos h]
  · rw [eagerStep_trace, if_pos h]

/-- Witness for C7 at a concrete input: a fresh cell's first cycle builds. -/
theorem c7_eager_synchronous_build_witness :
    eagerShouldBuild true (eagerInit 0 : EagerCell Nat Nat) [1] = true
      ∧ ((eagerStep true 42 [1] (eagerInit 0 : EagerCell Nat Nat)).1.current
            = Slot.val 42
        ∧ eagerRead (eagerStep true 42 [1]
            (eagerInit 0 : EagerCell Nat Nat)).1 = Slot.val 42
        ∧ (eagerStep true 42 [1] (eagerInit 0 : EagerCell Nat Nat)).2
            = [42]) :=
  ⟨rfl, c7_eager_synchronous_build (eagerInit 0) 42 [1] rfl⟩

/-- C8: in passthrough mode (no dependency list), mode resolution never
inspects the first argument, so even a callable argument selects passthrough
and is stored as a concrete value; on every cycle the supplied argument
overwrites the cell's value unconditionally, the wrapper cell is marked
initialized, and a read always succeeds, returning the argument of the most
recent cycle.  No builder or cleanup event exists in these machines, which
perform no dependency comparison. -/
theorem c8_passthrough_overwrites_every_cycle {V D : Type} (p1 : Arg V)
    (i : Nat) (v0 : V) (vs : List V) (f : Nat → V) :
    resolveMode p1 (none : Option (Param2 D)) none = Mode.simple
      ∧ some (simpleRun i v0 vs).current = (v0 :: vs).getLast?
      ∧ (wrapperSimpleRunFrom (v0 :: vs) (wrapperInit i)).isInitialized = true
      ∧ wrapperGet (wrapperSimpleRunFrom (v0 :: vs) (wrapperInit i))
          = Except.ok ((v0 :: vs).getLast?)
      ∧ (simpleRun i (Arg.func f) []).current = Arg.func f := by
  have hw := wrapperSimpleRunFrom_spec v0 vs (wrapperInit (V := V) i)
  refine ⟨rfl, simpleRun_last i v0 vs, hw.1, ?_, rfl⟩
  simp [wrapperGet, hw.1, hw.2.1]

/-- C9: in eager rebuild mode with a non-callable first argument, the
`shouldBuild` guard never fires: over any run no build ever happens, the
cell's value silently remains the internal sentinel, and the unguarded read
returns that sentinel without raising any error. -/
theorem c9_eager_nonfunction_keeps_sentinel {V D : Type} [DecidableEq D]
    (i : Nat) (cycles : List (List D × V)) :
    (eagerRunAll false i cycles).trace = []
      ∧ (eagerRunAll false i cycles).cell.current = Slot.sym
      ∧ eagerRead (eagerRunAll false i cycles).cell = Slot.sym := by
  have h := eagerGo_false cycles
    ({ cell := eagerInit i, trace := [] } : EagerRun V D)
  exact ⟨h.1, h.2, h.2⟩

/-- C10: the `value` setter is unguarded in every mode and lifecycle state:
on any cell whatsoever — uninitialized, ready or after disposal — a write
succeeds, stores the written value and never raises, both in the deferred
variant (whose getter does raise) and in the guarded wrapper of the named
source file. -/
theorem c10_setter_total_never_raises {V : Type} (c : DisposableCell V)
    (w : WrapperCell V) (v : V) :
    dSet v c = Except.ok
        { id := c.id, current := DSlot.val v,
          isInitialized := c.isInitialized }
      ∧ (∀ e, dSet v c ≠ Except.error e)
      ∧ wrapperSet v w = Except.ok
          { id := w.id, current := some v, isInitialized := w.isInitialized }
      ∧ (∀ e, wrapperSet v w ≠ Except.error e) := by
  refine ⟨rfl, ?_, rfl, ?_⟩ <;> intro e h <;> simp [dSet, wrapperSet] at h

end StableRef
